import Mathlib

/-!
Verification of the Aurora hybrid retrieval pipeline.

This file gives a shallow embedding of the algorithmic core of the
repository and proves properties about it:

* `src/aurora_mcp/server.py` (`aurora_search`): query sanitisation,
  admission, score fusion, project-affinity boosting, ordering, limiting;
* `src/aurora_mcp/services/reranker.py` (`Reranker.rerank`): response
  parsing and candidate reordering;
* `src/aurora_mcp/services/query_expander.py` (`QueryExpander.expand`):
  validation gate and class-level cache;
* `src/aurora_mcp/services/summarizer.py` (`Summarizer.summarize`):
  validation gate and post-processing;
* `src/aurora_mcp/utils/project_detector.py` (`find_project_root`).

Python strings are modelled as lists of characters (`PyStr`), with the
ASCII fragment of the Python character predicates.  SQL / store supplied
floating point scores are modelled as exact rationals.  Fallible LLM chat
calls are modelled as an `Except` value supplied as an argument; the
filesystem seen by the project detector is modelled as the list of
ancestor directories (each with its entry names) of the normalised start
directory.  External filters (namespace, document type, metadata) are
applied by the store and are modelled as already applied to the candidate
row list.
-/

namespace Aurora

/-- Python strings, modelled as lists of characters. -/
abbrev PyStr := List Char

/-- ASCII model of the Python whitespace class (regex `\s`, `str.strip`,
`str.split`). -/
def pyIsSpace (c : Char) : Bool := c.isWhitespace

/-- ASCII model of the Python word class (regex `\w`). -/
def pyIsWordChar (c : Char) : Bool := c.isAlphanum || c == '_'

/-- Python `str.strip()`: drop whitespace from both ends. -/
def pyStrip (s : PyStr) : PyStr :=
  ((s.dropWhile pyIsSpace).reverse.dropWhile pyIsSpace).reverse

/-- ASCII model of Python `str.lower` on one character. -/
def pyLowerChar (c : Char) : Char :=
  if 'A' ≤ c ∧ c ≤ 'Z' then Char.ofNat (c.toNat + 32) else c

/-- ASCII model of Python `str.lower`. -/
def pyLower (s : PyStr) : PyStr := s.map pyLowerChar

/-- Python `str.split(sep)` for a one-character separator: split at every
separator occurrence, keeping empty pieces. -/
def pySplit (p : Char → Bool) : PyStr → List PyStr
  | [] => [[]]
  | c :: rest =>
    if p c then [] :: pySplit p rest
    else
      match pySplit p rest with
      | [] => [[c]]
      | h :: t => (c :: h) :: t

/-- Python `str.split()` with no separator: whitespace runs, empty pieces
discarded. -/
def pySplitWs (s : PyStr) : List PyStr :=
  (pySplit pyIsSpace s).filter (fun l => decide (l ≠ []))

/-- Python `sep.join(pieces)`. -/
def pyJoin (sep : PyStr) : List PyStr → PyStr
  | [] => []
  | [x] => x
  | x :: y :: t => x ++ sep ++ pyJoin sep (y :: t)

/-- Python `enumerate(xs)` starting at index `k`. -/
def pyEnum {α : Type*} : Nat → List α → List (Nat × α)
  | _, [] => []
  | k, a :: t => (k, a) :: pyEnum (k + 1) t

/-- Python `hay.startswith(needle)` on character lists. -/
def pyStartsWith : PyStr → PyStr → Bool
  | [], _ => true
  | _ :: _, [] => false
  | a :: as, b :: bs => a == b && pyStartsWith as bs

/-- Python `needle in hay`: contiguous substring test. -/
def pySubstr (needle : PyStr) : PyStr → Bool
  | [] => pyStartsWith needle []
  | c :: rest => pyStartsWith needle (c :: rest) || pySubstr needle rest

/-- Numeric value of an all-digit token (Python `int(tok)` for tokens that
pass `str.isdigit`). -/
def digitsToNat (s : PyStr) : Nat :=
  s.foldl (fun n c => 10 * n + (c.toNat - 48)) 0

/-- Python `str.isdigit` (ASCII): non-empty and all digits. -/
def pyIsDigitStr (s : PyStr) : Bool := decide (s ≠ []) && s.all Char.isDigit

/-- Quote trimming from `QueryExpander.expand`: if the text both starts and
ends with a double quote, drop the first and last character. -/
def quoteTrim (s : PyStr) : PyStr :=
  if s.head? = some '"' ∧ s.getLast? = some '"' then (s.drop 1).dropLast else s

/-- `build_tsquery` from `server.py`: replace every character that is
neither a word character nor whitespace by a space, split on whitespace,
and join the surviving terms with the tsquery AND operator. -/
def build_tsquery (query : PyStr) : PyStr :=
  pyJoin [' ', '&', ' ']
    (pySplitWs (query.map (fun c => if pyIsWordChar c || pyIsSpace c then c else ' ')))

/-- One candidate row as returned by the vector store for `aurora_search`:
the embedding similarity `1 - (embedding_vector <=> query)`, the
`ts_rank_cd` keyword score, whether `content_tsv @@ to_tsquery(...)`
matches, and the stored project path. -/
structure Row where
  id : Nat
  projectPath : Option PyStr
  embeddingScore : ℚ
  keywordScore : ℚ
  matchesTs : Bool
deriving DecidableEq

/-- The `aurora_search` arguments that the ranking logic depends on. -/
structure SearchRequest where
  query : PyStr
  limit : Nat
  threshold : ℚ
  currentProjectPath : Option PyStr
  useHybrid : Bool
deriving DecidableEq

/-- One result record assembled by `aurora_search` (the fields the spec
talks about). -/
structure OutDoc where
  id : Nat
  projectPath : Option PyStr
  isSameProject : Bool
  similarityScore : ℚ
  embeddingScore : ℚ
  keywordScore : Option ℚ
deriving DecidableEq

/-- The hybrid branch of `aurora_search` is taken when `use_hybrid` is set
and the sanitised lexical query is non-empty
(`if use_hybrid and tsquery_str:`). -/
def hybridLex (req : SearchRequest) : Bool :=
  req.useHybrid && decide (build_tsquery req.query ≠ [])

/-- The SQL `WHERE` clause of `aurora_search`: in the hybrid branch a row
passes when its embedding similarity exceeds the threshold or the lexical
query matches; otherwise only the threshold test applies. -/
def retained (req : SearchRequest) (r : Row) : Bool :=
  if hybridLex req then decide (req.threshold < r.embeddingScore) || r.matchesTs
  else decide (req.threshold < r.embeddingScore)

/-- Score fusion of `aurora_search`: `0.7 * embedding + 0.3 * keyword` in
the hybrid branch, embedding similarity alone otherwise. -/
def fusedScore (req : SearchRequest) (r : Row) : ℚ :=
  if hybridLex req then 0.7 * r.embeddingScore + 0.3 * r.keywordScore
  else r.embeddingScore

/-- Project-affinity test of `aurora_search`.  The boost `CASE` is emitted
only under Python truthiness of `current_project_path` (so an empty string
disables it), and compares the stored `project_path` for exact equality;
the same test produces the `is_same_project` flag. -/
def projectMatch (req : SearchRequest) (r : Row) : Bool :=
  match req.currentProjectPath with
  | none => false
  | some p => decide (p ≠ []) && decide (r.projectPath = some p)

/-- `final_score` of `aurora_search`: the fused score, boosted by `+0.15`
and capped at `1.0` (`LEAST`) when the project-affinity test passes. -/
def finalScore (req : SearchRequest) (r : Row) : ℚ :=
  if projectMatch req r then min 1 (fusedScore req r + 0.15)
  else fusedScore req r

/-- The `ORDER BY final_score DESC` ordering on rows. -/
def byFinalScoreDesc (req : SearchRequest) (a b : Row) : Prop :=
  finalScore req b ≤ finalScore req a

instance (req : SearchRequest) : DecidableRel (byFinalScoreDesc req) :=
  fun a b => inferInstanceAs (Decidable (finalScore req b ≤ finalScore req a))

instance (req : SearchRequest) : IsTotal Row (byFinalScoreDesc req) :=
  ⟨fun a b => le_total (finalScore req b) (finalScore req a)⟩

instance (req : SearchRequest) : IsTrans Row (byFinalScoreDesc req) :=
  ⟨fun _ _ _ h1 h2 => le_trans h2 h1⟩

/-- Assembly of one result record from a row (`documents.append({...})` in
`aurora_search`); the keyword score column exists only in the hybrid
branch. -/
def toDoc (req : SearchRequest) (r : Row) : OutDoc where
  id := r.id
  projectPath := r.projectPath
  isSameProject := projectMatch req r
  similarityScore := finalScore req r
  embeddingScore := r.embeddingScore
  keywordScore := if hybridLex req then some r.keywordScore else none

/-- The ranking pipeline of `aurora_search` without the optional rerank
stage: empty-query guard, `WHERE` filter, `ORDER BY final_score DESC`,
`LIMIT`, then record assembly. -/
def aurora_search (req : SearchRequest) (rows : List Row) : List OutDoc :=
  if req.query = [] then []
  else
    ((((rows.filter (retained req)).insertionSort (byFinalScoreDesc req)).take req.limit).map
      (toDoc req))

/-- Failure modes of the LLM chat collaborator. -/
inductive LLMError where
  | chatTimeout
  | quota
  | malformed
deriving DecidableEq

/-- Response parsing of `Reranker.rerank`: replace newlines by spaces,
split on commas, strip each token, keep all-digit tokens and convert them
to zero-based indices (`int(tok) - 1`). -/
def parseRanking (content : PyStr) : List Int :=
  (((pySplit (fun c => c == ',') (content.map (fun c => if c == '\n' then ' ' else c))).map
        pyStrip).filterMap
    (fun tok => if pyIsDigitStr tok then some ((digitsToNat tok : Int) - 1) else none))

/-- Candidate reordering of `Reranker.rerank` before truncation: the
candidates at the parsed in-range indices in response order, followed by
the candidates whose index is not mentioned, in original order. -/
def rerankCore {α : Type*} (docs : List α) (ranking : List Int) : List α :=
  (ranking.filterMap
      (fun i => if 0 ≤ i ∧ i < (docs.length : Int) then docs[i.toNat]? else none)) ++
    (((pyEnum 0 docs).filter (fun p => !(decide ((p.1 : Int) ∈ ranking)))).map Prod.snd)

/-- The parsed response indices that pass the range check
(`0 <= i < len(documents)`), as natural numbers, in response order. -/
def rankingValidIdx (n : Nat) (ranking : List Int) : List Nat :=
  ranking.filterMap (fun i => if 0 ≤ i ∧ i < (n : Int) then some i.toNat else none)

/-- `Reranker.rerank` as a function of the model response text: empty
input short-circuits, otherwise reorder and truncate to `topK`. -/
def rerank {α : Type*} (docs : List α) (content : PyStr) (topK : Nat) : List α :=
  if docs.isEmpty then [] else (rerankCore docs (parseRanking content)).take topK

/-- `Reranker.rerank` with a fallible chat call: the empty-candidate guard
runs before the call, and a chat failure propagates to the caller (there is
no exception handler inside `rerank`). -/
def rerankE {α : Type*} (docs : List α) (resp : Except LLMError PyStr) (topK : Nat) :
    Except LLMError (List α) :=
  if docs.isEmpty then .ok []
  else
    match resp with
    | .error e => .error e
    | .ok content => .ok ((rerankCore docs (parseRanking content)).take topK)

/-- The rerank stage of `aurora_search`: invoked only when requested, a
model is configured and there are documents; a propagated failure is caught
and the pre-rerank fused ordering is kept. -/
def applyRerank (doRerank modelConfigured : Bool) (docs : List OutDoc)
    (resp : Except LLMError PyStr) (topK : Nat) : List OutDoc :=
  if doRerank && modelConfigured && !docs.isEmpty then
    match rerankE docs resp topK with
    | .ok r => r
    | .error _ => docs
  else docs

/-- The validation gate of `QueryExpander.expand` applied to the stripped,
quote-trimmed model output: reject empty output, output not containing the
query case-insensitively, output shorter than the query or longer than five
times the query, and output with a newline or more than two periods. -/
def validateExpansion (query raw : PyStr) : Option PyStr :=
  let expanded := quoteTrim (pyStrip raw)
  if expanded = [] then none
  else if !pySubstr (pyLower query) (pyLower expanded) then none
  else if expanded.length < query.length then none
  else if query.length * 5 < expanded.length then none
  else if expanded.contains '\n' || 2 < List.count '.' expanded then none
  else some expanded

/-- `QueryExpander.expand` without the cache: input validation, then the
chat call (failures are swallowed and become `none`), then the validation
gate. -/
def expandResult (query : PyStr) (resp : Except LLMError PyStr) : Option PyStr :=
  if query = [] ∨ pyStrip query = [] then none
  else
    match resp with
    | .error _ => none
    | .ok raw => validateExpansion query raw

/-- The validation-gate conditions of `QueryExpander.expand` as a predicate
on the query and the candidate expansion. -/
def gateAccepts (query t : PyStr) : Bool :=
  decide (t ≠ []) && pySubstr (pyLower query) (pyLower t) &&
    decide (query.length ≤ t.length) && decide (t.length ≤ 5 * query.length) &&
    !(t.contains '\n') && decide (List.count '.' t ≤ 2)

/-- Newline collapsing of `Summarizer.summarize`: split on newlines, strip
each line, drop blank lines, join with single spaces. -/
def collapseNewlines (s : PyStr) : PyStr :=
  pyJoin [' ']
    (((pySplit (fun x => x == '\n') s).map pyStrip).filter (fun l => decide (l ≠ [])))

/-- `Summarizer.summarize` as a function of the chat outcome: input
validation, the gate (non-empty, strictly shorter than the content, at
least 50 characters), then truncation of over-long output to 1000
characters plus an ellipsis, then newline collapsing when the text has more
than 5 newlines. -/
def summarizeResult (content : PyStr) (resp : Except LLMError PyStr) : Option PyStr :=
  if content = [] ∨ pyStrip content = [] then none
  else
    match resp with
    | .error _ => none
    | .ok raw =>
      let s := pyStrip raw
      if s = [] then none
      else if content.length ≤ s.length then none
      else if s.length < 50 then none
      else
        let s2 := if 1000 < s.length then s.take 1000 ++ ['.', '.', '.'] else s
        some (if 5 < List.count '\n' s2 then collapseNewlines s2 else s2)

/-- One directory on the ancestor chain inspected by `find_project_root`:
its display path and the entry names present in it. -/
structure FsDir where
  path : PyStr
  entries : List PyStr
deriving DecidableEq

/-- `PROJECT_ROOT_MARKERS` from `project_detector.py`. -/
def PROJECT_ROOT_MARKERS : List PyStr :=
  [".git".toList, ".hg".toList, ".svn".toList, "pyproject.toml".toList,
    "package.json".toList, "Cargo.toml".toList, "go.mod".toList, "pom.xml".toList,
    "build.gradle".toList, "CMakeLists.txt".toList, "composer.json".toList,
    "Gemfile".toList, ".project".toList]

/-- The inner marker loop of `find_project_root`: a directory matches when
any marker of the fixed set exists in it. -/
def hasMarker (d : FsDir) : Bool :=
  PROJECT_ROOT_MARKERS.any (fun m => d.entries.contains m)

/-- The walk of `find_project_root` over the ancestor chain of the
normalised start directory (start directory first, filesystem root last):
return the first directory containing any marker, `none` otherwise. -/
def find_project_root : List FsDir → Option PyStr
  | [] => none
  | d :: rest => if hasMarker d then some d.path else find_project_root rest

/-- The configuration parameters that enter the expansion cache key; the
temperature is kept in its rendered (formatted) form. -/
structure ExpanderCfg where
  model : PyStr
  temperature : PyStr
deriving DecidableEq

/-- `QueryExpander._get_cache_key` before hashing:
`f"{query}|{self.model}|{self.temperature}"`.  The md5 digest of this
string is modelled as the string itself (best case: a collision-free
hash). -/
def cacheKey (cfg : ExpanderCfg) (query : PyStr) : PyStr :=
  query ++ ('|' :: cfg.model ++ '|' :: cfg.temperature)

/-- The class-level expansion cache, modelled as an association list (the
TTL/size eviction of `TTLCache` only removes entries and is not
modelled). -/
abbrev Cache := List (PyStr × PyStr)

/-- Dictionary lookup in the cache. -/
def cacheLookup (key : PyStr) (cache : Cache) : Option PyStr :=
  (cache.find? (fun p => p.1 == key)).map Prod.snd

/-- `QueryExpander.expand` with the cache: input validation, cache hit
returns the stored value unvalidated, cache miss runs the chat call and the
gate and stores an accepted expansion under the key. -/
def expandCached (cfg : ExpanderCfg) (cache : Cache) (query : PyStr)
    (resp : Except LLMError PyStr) : Option PyStr × Cache :=
  if query = [] ∨ pyStrip query = [] then (none, cache)
  else
    match cacheLookup (cacheKey cfg query) cache with
    | some v => (some v, cache)
    | none =>
      match resp with
      | .error _ => (none, cache)
      | .ok raw =>
        match validateExpansion query raw with
        | some t => (some t, (cacheKey cfg query, t) :: cache)
        | none => (none, cache)

/-- Invariant of the expansion cache for one fixed configuration: every
stored value was accepted by the validation gate for the query encoded in
its key. -/
def CacheInv (cfg : ExpanderCfg) (cache : Cache) : Prop :=
  ∀ p ∈ cache, ∃ q, p.1 = cacheKey cfg q ∧ gateAccepts q p.2 = true

/-- Caches reachable from the empty cache by `expand` calls of arbitrary
configurations (all `QueryExpander` instances share the class-level
cache). -/
inductive ReachableCache : Cache → Prop where
  | empty : ReachableCache []
  | step (cfg : ExpanderCfg) (query : PyStr) (resp : Except LLMError PyStr) (cache : Cache) :
      ReachableCache cache → ReachableCache (expandCached cfg cache query resp).2

/-- Every document returned by the (pre-rerank) pipeline comes from an
input row that passed the `WHERE` filter. -/
theorem mem_aurora_search {req : SearchRequest} {rows : List Row} {d : OutDoc}
    (hd : d ∈ aurora_search req rows) :
    ∃ r ∈ rows, retained req r = true ∧ d = toDoc req r := by
  unfold aurora_search at hd
  split at hd
  · simp at hd
  · obtain ⟨r, hr, rfl⟩ := List.mem_map.mp hd
    have hr2 : r ∈ (rows.filter (retained req)).insertionSort (byFinalScoreDesc req) :=
      List.take_subset _ _ hr
    have hr3 : r ∈ rows.filter (retained req) :=
      (List.perm_insertionSort (byFinalScoreDesc req) _).mem_iff.mp hr2
    obtain ⟨hr4, hr5⟩ := List.mem_filter.mp hr3
    exact ⟨r, hr4, hr5, rfl⟩

/-- C2: in embedding-only mode (and in hybrid mode with an empty sanitised
lexical query) every returned candidate has `embeddingScore > threshold`;
in hybrid mode with a non-empty sanitised lexical query a row is retained
by the admission filter exactly when `embeddingScore > threshold` or the
row matches the lexical query, regardless of its embedding score. -/
theorem search_admission_rule (req : SearchRequest) (rows : List Row) :
    (hybridLex req = false →
      ∀ d ∈ aurora_search req rows, req.threshold < d.embeddingScore) ∧
    (hybridLex req = true →
      ∀ r : Row, r ∈ rows.filter (retained req) ↔
        r ∈ rows ∧ (req.threshold < r.embeddingScore ∨ r.matchesTs = true)) := by
  constructor
  · intro hmode d hd
    obtain ⟨r, _, hret, rfl⟩ := mem_aurora_search hd
    simp only [retained, hmode, if_false, Bool.false_eq_true, decide_eq_true_eq] at hret
    simpa [toDoc] using hret
  · intro hmode r
    simp [List.mem_filter, retained, hmode]

/-- C2 witness: a concrete embedding-only search in which the single
admitted candidate beats the threshold. -/
theorem search_admission_rule_witness :
    (⟨['q'], 10, 0.2, none, false⟩ : SearchRequest).threshold <
      (⟨0, none, false, 0.5, 0.5, none⟩ : OutDoc).embeddingScore ∧
    hybridLex ⟨['q'], 10, 0.2, none, false⟩ = false := by
  refine ⟨?_, by norm_num [hybridLex]⟩
  have h := (search_admission_rule ⟨['q'], 10, 0.2, none, false⟩
      [⟨0, none, 0.5, 0, false⟩]).1 (by norm_num [hybridLex])
      ⟨0, none, false, 0.5, 0.5, none⟩
  apply h
  norm_num [aurora_search, retained, hybridLex, toDoc, projectMatch, finalScore, fusedScore,
    List.insertionSort, List.filter]

/-- C6: error-handling asymmetry.  A failing chat call makes
`QueryExpander.expand` return no expansion (it never raises), makes
`Reranker.rerank` propagate the failure to its caller, and the search
orchestrator catches that failure and keeps the pre-rerank fused ordering
of the same documents. -/
theorem augmentation_error_asymmetry (q : PyStr) (err : LLMError) (docs : List OutDoc)
    (topK : Nat) (doR modelC : Bool) :
    expandResult q (.error err) = none ∧
    (docs ≠ [] → rerankE docs (.error err) topK = .error err) ∧
    applyRerank doR modelC docs (.error err) topK = docs := by
  refine ⟨?_, ?_, ?_⟩
  · unfold expandResult
    split <;> rfl
  · intro hne
    unfold rerankE
    rw [if_neg (by simpa using hne)]
  · unfold applyRerank
    split
    · rename_i hcond
      have hne : docs ≠ [] := by
        rcases docs with _ | _
        · simp at hcond
        · simp
      unfold rerankE
      rw [if_neg (by simpa using hne)]
    · rfl

/-- C6 witness: the asymmetry at a concrete failing call. -/
theorem augmentation_error_asymmetry_witness :
    expandResult ['a'] (.error .chatTimeout) = none ∧
    rerankE [(⟨0, none, false, 0, 0, none⟩ : OutDoc)] (.error .chatTimeout) 10 =
      .error .chatTimeout ∧
    applyRerank true true [(⟨0, none, false, 0, 0, none⟩ : OutDoc)]
      (.error .chatTimeout) 10 = [⟨0, none, false, 0, 0, none⟩] := by
  obtain ⟨h1, h2, h3⟩ :=
    augmentation_error_asymmetry ['a'] .chatTimeout
      [(⟨0, none, false, 0, 0, none⟩ : OutDoc)] 10 true true
  exact ⟨h1, h2 (by simp), h3⟩

/-- C9: `find_project_root` walks the ancestor chain from the normalised
start directory upward and returns the nearest directory containing any
marker of the fixed marker set, with no priority ordering across marker
types; it returns `none` exactly when no ancestor contains a marker. -/
theorem find_project_root_nearest_marker (chain : List FsDir) :
    (find_project_root chain = none ↔ ∀ d ∈ chain, hasMarker d = false) ∧
    (∀ p, find_project_root chain = some p →
      ∃ pre d suf, chain = pre ++ d :: suf ∧ d.path = p ∧ hasMarker d = true ∧
        ∀ d' ∈ pre, hasMarker d' = false) := by
  induction chain with
  | nil =>
    refine ⟨by simp [find_project_root], ?_⟩
    intro p hp
    simp [find_project_root] at hp
  | cons d rest ih =>
    constructor
    · by_cases h : hasMarker d = true
      · simp [find_project_root, h]
      · simp only [find_project_root, if_neg h]
        rw [ih.1]
        simp only [Bool.not_eq_true] at h
        simp [h]
    · intro p hp
      by_cases h : hasMarker d = true
      · rw [find_project_root, if_pos h] at hp
        exact ⟨[], d, rest, rfl, Option.some.inj hp, h, by simp⟩
      · rw [find_project_root, if_neg h] at hp
        obtain ⟨pre, d', suf, heq, hp', hm, hpre⟩ := ih.2 p hp
        refine ⟨d :: pre, d', suf, by rw [heq]; rfl, hp', hm, ?_⟩
        intro x hx
        rcases List.mem_cons.mp hx with hx | hx
        · subst hx
          simpa using h
        · exact hpre x hx

/-- C9 witness: an inner directory with a manifest marker nested below an
outer directory with a version-control marker resolves to the inner
directory. -/
theorem find_project_root_nearest_marker_witness :
    find_project_root
        [⟨"/repo/outer/inner".toList, ["package.json".toList]⟩,
          ⟨"/repo/outer".toList, [".git".toList]⟩] = some ("/repo/outer/inner".toList) ∧
    ∃ pre d suf,
      ([⟨"/repo/outer/inner".toList, ["package.json".toList]⟩,
          ⟨"/repo/outer".toList, [".git".toList]⟩] : List FsDir) = pre ++ d :: suf ∧
        d.path = "/repo/outer/inner".toList ∧ hasMarker d = true ∧
        ∀ d' ∈ pre, hasMarker d' = false :=
  ⟨by decide,
    (find_project_root_nearest_marker _).2 ("/repo/outer/inner".toList) (by decide)⟩

/-- C1 counterexample: the claim reads the boost condition as
`currentProjectPath` being supplied; with the supplied value `""` and a
candidate whose stored project path is also `""` the two are identical
strings, yet the code (Python truthiness) skips the boost and marks the
candidate not-same-project. -/
theorem search_boost_requires_nonempty_path_cex :
    ¬ (∀ (req : SearchRequest) (rows : List Row), ∀ d ∈ aurora_search req rows,
        (req.currentProjectPath = none →
          d.similarityScore =
            (if hybridLex req = true then
              0.7 * d.embeddingScore + 0.3 * d.keywordScore.getD 0
            else d.embeddingScore) ∧ d.isSameProject = false) ∧
        (∀ p, req.currentProjectPath = some p →
          (d.projectPath = some p →
            d.similarityScore =
              min 1 ((if hybridLex req = true then
                  0.7 * d.embeddingScore + 0.3 * d.keywordScore.getD 0
                else d.embeddingScore) + 0.15) ∧ d.isSameProject = true) ∧
          (d.projectPath ≠ some p →
            d.similarityScore =
              (if hybridLex req = true then
                0.7 * d.embeddingScore + 0.3 * d.keywordScore.getD 0
              else d.embeddingScore) ∧ d.isSameProject = false))) := by
  intro h
  have hmem : (⟨0, some [], false, 0.5, 0.5, none⟩ : OutDoc) ∈
      aurora_search ⟨['q'], 10, 0.2, some [], false⟩ [⟨0, some [], 0.5, 0, false⟩] := by
    norm_num [aurora_search, retained, hybridLex, toDoc, projectMatch, finalScore, fusedScore,
      List.insertionSort, List.filter]
  have h2 := ((h _ _ _ hmem).2 [] rfl).1 rfl
  simpa using h2.2

/-- C1 (amended): for every returned candidate, `finalScore` is
`0.7 * embeddingScore + 0.3 * keywordScore` in hybrid mode with a
non-empty sanitised lexical query and `embeddingScore` otherwise
(the keyword score is reported exactly for that mode); when
`currentProjectPath` is supplied, non-empty, and equals the candidate's
stored project path exactly, the score is boosted to
`min(1, finalScore + 0.15)` and the candidate is marked same-project,
otherwise the score is unchanged and the candidate is marked
not-same-project. -/
theorem search_score_fusion_and_boost (req : SearchRequest) (rows : List Row) :
    ∀ d ∈ aurora_search req rows,
      (hybridLex req = true ↔ d.keywordScore.isSome = true) ∧
      ((∃ p, req.currentProjectPath = some p ∧ p ≠ [] ∧ d.projectPath = some p) →
        d.similarityScore =
          min 1 ((if hybridLex req = true then
              0.7 * d.embeddingScore + 0.3 * d.keywordScore.getD 0
            else d.embeddingScore) + 0.15) ∧ d.isSameProject = true) ∧
      (¬ (∃ p, req.currentProjectPath = some p ∧ p ≠ [] ∧ d.projectPath = some p) →
        d.similarityScore =
          (if hybridLex req = true then
            0.7 * d.embeddingScore + 0.3 * d.keywordScore.getD 0
          else d.embeddingScore) ∧ d.isSameProject = false) := by
  intro d hd
  obtain ⟨r, _, _, rfl⟩ := mem_aurora_search hd
  have hbase : (if hybridLex req = true then
      0.7 * (toDoc req r).embeddingScore + 0.3 * (toDoc req r).keywordScore.getD 0
    else (toDoc req r).embeddingScore) = fusedScore req r := by
    simp only [toDoc, fusedScore]
    by_cases hb : hybridLex req <;> simp [hb]
  have hpm : projectMatch req r = true ↔
      ∃ p, req.currentProjectPath = some p ∧ p ≠ [] ∧ (toDoc req r).projectPath = some p := by
    simp only [toDoc]
    cases hc : req.currentProjectPath with
    | none => simp [projectMatch, hc]
    | some p =>
      simp only [projectMatch, hc, Bool.and_eq_true, decide_eq_true_eq,
        Option.some.injEq]
      constructor
      · rintro ⟨hp, hrp⟩
        exact ⟨p, rfl, hp, hrp⟩
      · rintro ⟨p', hpp, hp', hrp⟩
        subst hpp
        exact ⟨hp', hrp⟩
  refine ⟨?_, ?_, ?_⟩
  · by_cases hb : hybridLex req <;> simp [toDoc, hb]
  · intro hex
    have hm : projectMatch req r = true := hpm.mpr hex
    rw [hbase]
    constructor
    · show finalScore req r = _
      rw [finalScore, if_pos hm]
    · simp [toDoc, hm]
  · intro hnex
    have hm : projectMatch req r = false :=
      Bool.not_eq_true _ ▸ (fun hcon => hnex (hpm.mp hcon))
    rw [hbase]
    constructor
    · show finalScore req r = _
      rw [finalScore, hm]
      simp
    · simp [toDoc, hm]

/-- C1 witness: a supplied non-empty project path matching the candidate
boosts `0.5` to `0.65` and marks it same-project. -/
theorem search_score_fusion_and_boost_witness :
    (⟨0, some ['x'], true, 0.65, 0.5, none⟩ : OutDoc).similarityScore =
      min 1 ((if hybridLex ⟨['q'], 10, 0.2, some ['x'], false⟩ = true then
          0.7 * (⟨0, some ['x'], true, 0.65, 0.5, none⟩ : OutDoc).embeddingScore +
            0.3 * (⟨0, some ['x'], true, 0.65, 0.5, none⟩ : OutDoc).keywordScore.getD 0
        else (⟨0, some ['x'], true, 0.65, 0.5, none⟩ : OutDoc).embeddingScore) + 0.15) ∧
    (⟨0, some ['x'], true, 0.65, 0.5, none⟩ : OutDoc).isSameProject = true := by
  have hmem : (⟨0, some ['x'], true, 0.65, 0.5, none⟩ : OutDoc) ∈
      aurora_search ⟨['q'], 10, 0.2, some ['x'], false⟩ [⟨0, some ['x'], 0.5, 0, false⟩] := by
    norm_num [aurora_search, retained, hybridLex, toDoc, projectMatch, finalScore, fusedScore,
      min_def, List.insertionSort, List.filter]
  exact (search_score_fusion_and_boost _ _ _ hmem).2.1 ⟨['x'], rfl, by simp, rfl⟩

/-- C3 counterexample: the store similarity `1 - (cosine distance)` may be
negative, and in hybrid mode a lexical match admits a candidate regardless
of its embedding score, so a returned `finalScore` can be negative. -/
theorem search_final_score_bounds_cex :
    ¬ (∀ (req : SearchRequest) (rows : List Row), ∀ d ∈ aurora_search req rows,
        0 ≤ d.similarityScore ∧ d.similarityScore ≤ 1) := by
  intro h
  have hmem : (⟨0, none, false, -(7/20), -(1/2), some 0⟩ : OutDoc) ∈
      aurora_search ⟨['q'], 10, 0.2, none, true⟩ [⟨0, none, -(1/2), 0, true⟩] := by
    norm_num [aurora_search, retained, hybridLex, build_tsquery, pySplitWs, pySplit, pyJoin,
      pyIsSpace, pyIsWordChar, toDoc, projectMatch, finalScore, fusedScore,
      List.insertionSort, List.filter]
  have h2 := (h _ _ _ hmem).1
  norm_num at h2

/-- C3 (amended): when every candidate row's embedding and keyword scores
lie in `[0, 1]` (the nominal store ranges), every returned candidate's
`finalScore` lies in `[0, 1]` after boosting — the boost is capped at
`1.0`.  Without the non-negativity assumption the lower bound fails (see
the counterexample). -/
theorem search_final_score_bounds (req : SearchRequest) (rows : List Row)
    (hb : ∀ r ∈ rows, 0 ≤ r.embeddingScore ∧ r.embeddingScore ≤ 1 ∧
      0 ≤ r.keywordScore ∧ r.keywordScore ≤ 1) :
    ∀ d ∈ aurora_search req rows, 0 ≤ d.similarityScore ∧ d.similarityScore ≤ 1 := by
  intro d hd
  obtain ⟨r, hr, _, rfl⟩ := mem_aurora_search hd
  obtain ⟨he0, he1, hk0, hk1⟩ := hb r hr
  have hf0 : 0 ≤ fusedScore req r := by
    unfold fusedScore
    split
    · nlinarith
    · exact he0
  have hf1 : fusedScore req r ≤ 1 := by
    unfold fusedScore
    split
    · nlinarith
    · exact he1
  show 0 ≤ finalScore req r ∧ finalScore req r ≤ 1
  unfold finalScore
  split
  · exact ⟨le_min (by norm_num) (by linarith), min_le_left _ _⟩
  · exact ⟨hf0, hf1⟩

/-- C3 witness: a concrete in-range search whose returned score is in
`[0, 1]`. -/
theorem search_final_score_bounds_witness :
    (0:ℚ) ≤ (⟨0, none, false, 0.5, 0.5, none⟩ : OutDoc).similarityScore ∧
    (⟨0, none, false, 0.5, 0.5, none⟩ : OutDoc).similarityScore ≤ 1 := by
  refine search_final_score_bounds ⟨['q'], 10, 0.2, none, false⟩
      [⟨0, none, 0.5, 0, false⟩] ?_ _ ?_
  · intro r hr
    simp only [List.mem_singleton] at hr
    subst hr
    norm_num
  · norm_num [aurora_search, retained, hybridLex, toDoc, projectMatch, finalScore, fusedScore,
      List.insertionSort, List.filter]

/-- C4 counterexample: `ORDER BY final_score DESC` does not break ties, so
two candidates with equal scores are not in strictly descending order. -/
theorem search_strict_order_cex :
    ¬ (∀ (req : SearchRequest) (rows : List Row),
        (aurora_search req rows).length ≤ req.limit ∧
        (aurora_search req rows).Pairwise
          (fun a b => b.similarityScore < a.similarityScore)) := by
  intro h
  have h2 := (h ⟨['q'], 10, 0.2, none, false⟩
      [⟨0, none, 0.5, 0, false⟩, ⟨1, none, 0.5, 0, false⟩]).2
  have he : aurora_search ⟨['q'], 10, 0.2, none, false⟩
      [⟨0, none, 0.5, 0, false⟩, ⟨1, none, 0.5, 0, false⟩] =
      [⟨0, none, false, 0.5, 0.5, none⟩, ⟨1, none, false, 0.5, 0.5, none⟩] := by
    norm_num [aurora_search, retained, hybridLex, toDoc, projectMatch, finalScore, fusedScore,
      List.insertionSort, List.orderedInsert, byFinalScoreDesc, List.filter]
  rw [he] at h2
  have h3 := (List.pairwise_cons.mp h2).1 ⟨1, none, false, 0.5, 0.5, none⟩ (by simp)
  norm_num at h3

/-- C4 (amended): for every search request without reranking, the returned
list has length at most the requested limit and is ordered by
non-increasing `finalScore` (ties are possible, so the order is weak, not
strict; the optional rerank stage deliberately abandons score order). -/
theorem search_limit_and_order (req : SearchRequest) (rows : List Row) :
    (aurora_search req rows).length ≤ req.limit ∧
    (aurora_search req rows).Pairwise
      (fun a b => b.similarityScore ≤ a.similarityScore) := by
  unfold aurora_search
  split
  · simp
  · constructor
    · simp only [List.length_map]
      exact List.length_take_le req.limit _
    · have hs : ((rows.filter (retained req)).insertionSort
          (byFinalScoreDesc req)).Pairwise (byFinalScoreDesc req) :=
        List.sorted_insertionSort _ _
      have ht := List.Pairwise.sublist (List.take_sublist req.limit _) hs
      exact ht.map _ (fun a b hab => hab)

/-- A value accepted by `validateExpansion` is the stripped, quote-trimmed
model output. -/
theorem validateExpansion_some_eq {q raw t : PyStr}
    (h : validateExpansion q raw = some t) : t = quoteTrim (pyStrip raw) := by
  unfold validateExpansion at h
  dsimp only [] at h
  split_ifs at h
  exact (Option.some.inj h).symm

/-- `validateExpansion` succeeds exactly when the gate conditions hold for
the stripped, quote-trimmed model output. -/
theorem validateExpansion_eq_some_iff (q raw : PyStr) :
    validateExpansion q raw = some (quoteTrim (pyStrip raw)) ↔
      gateAccepts q (quoteTrim (pyStrip raw)) = true := by
  have hg : gateAccepts q (quoteTrim (pyStrip raw)) = true ↔
      (quoteTrim (pyStrip raw) ≠ [] ∧
        pySubstr (pyLower q) (pyLower (quoteTrim (pyStrip raw))) = true ∧
        q.length ≤ (quoteTrim (pyStrip raw)).length ∧
        (quoteTrim (pyStrip raw)).length ≤ 5 * q.length ∧
        (quoteTrim (pyStrip raw)).contains '\n' = false ∧
        List.count '.' (quoteTrim (pyStrip raw)) ≤ 2) := by
    simp [gateAccepts, and_assoc]
  rw [hg]
  unfold validateExpansion
  dsimp only []
  constructor
  · intro h
    split_ifs at h with h1 h2 h3 h4 h5
    have h2' : pySubstr (pyLower q) (pyLower (quoteTrim (pyStrip raw))) = true := by
      simpa using h2
    simp only [Bool.or_eq_true, not_or, decide_eq_true_eq, Bool.not_eq_true] at h5
    exact ⟨h1, h2', by omega, by omega, h5.1, by omega⟩
  · rintro ⟨g1, g2, g3, g4, g5, g6⟩
    split_ifs with h1 h2 h3 h4 h5
    · exact absurd h1 g1
    · simp [g2] at h2
    · omega
    · omega
    · rw [g5] at h5
      simp only [Bool.false_or, decide_eq_true_eq] at h5
      omega
    · rfl

/-- An accepted expansion passes the gate for the query it was validated
against. -/
theorem validateExpansion_gate {q raw t : PyStr}
    (h : validateExpansion q raw = some t) : gateAccepts q t = true := by
  have he := validateExpansion_some_eq h
  subst he
  exact (validateExpansion_eq_some_iff q raw).mp h

/-- C7 counterexample: for a whitespace-only query the input check returns
no expansion before the chat call, even for a response text that satisfies
every gate condition, so the claimed equivalence fails. -/
theorem expand_gate_iff_cex :
    ¬ (∀ (query raw : PyStr),
        expandResult query (.ok raw) = some (quoteTrim (pyStrip raw)) ↔
          gateAccepts query (quoteTrim (pyStrip raw)) = true) := by
  intro h
  have h2 := (h [' '] ['a', ' ', 'b']).mpr (by decide)
  exact absurd h2 (by decide)

/-- C7 (amended): for every query that is non-empty after stripping,
`expand` returns the stripped, quote-trimmed expansion exactly when all
gate conditions hold (non-empty; contains the query case-insensitively;
at least as long as the query; at most five times as long; no newline and
at most two periods), and any transport error yields no expansion; for an
empty or whitespace-only query `expand` returns no expansion regardless of
the response. -/
theorem expand_validation_gate_iff (query : PyStr) (hq : pyStrip query ≠ []) :
    (∀ raw, expandResult query (.ok raw) = some (quoteTrim (pyStrip raw)) ↔
      gateAccepts query (quoteTrim (pyStrip raw)) = true) ∧
    (∀ err, expandResult query (.error err) = none) := by
  have hq0 : query ≠ [] := by
    rintro rfl
    exact hq rfl
  constructor
  · intro raw
    unfold expandResult
    rw [if_neg (by simp [hq0, hq])]
    exact validateExpansion_eq_some_iff query raw
  · intro err
    unfold expandResult
    rw [if_neg (by simp [hq0, hq])]

/-- C7 witness: a concrete accepted expansion and a concrete failing
call. -/
theorem expand_validation_gate_iff_witness :
    (expandResult ['a', 'b'] (.ok ['a', 'b', ' ', 'c']) =
        some (quoteTrim (pyStrip ['a', 'b', ' ', 'c'])) ↔
      gateAccepts ['a', 'b'] (quoteTrim (pyStrip ['a', 'b', ' ', 'c'])) = true) ∧
    expandResult ['a', 'b'] (.error .chatTimeout) = none := by
  obtain ⟨h1, h2⟩ := expand_validation_gate_iff ['a', 'b'] (by decide)
  exact ⟨h1 ['a', 'b', ' ', 'c'], h2 .chatTimeout⟩

/-- The range-guarded lookup along the parsed ranking equals lookup along
the valid-index list. -/
theorem filterMap_guard {β : Type*} (n : Nat) (f : Nat → Option β) (ranking : List Int) :
    ranking.filterMap (fun i => if 0 ≤ i ∧ i < (n : Int) then f i.toNat else none) =
      (rankingValidIdx n ranking).filterMap f := by
  rw [rankingValidIdx, List.filterMap_filterMap]
  apply List.filterMap_congr
  intro i _
  by_cases hi : 0 ≤ i ∧ i < (n : Int) <;> simp [hi]

/-- Filtering `enumerate` output by an index predicate and projecting the
elements equals a guarded lookup along the filtered index range. -/
theorem pyEnum_filter_map_snd {α : Type*} (q : Nat → Bool) :
    ∀ (docs : List α) (k : Nat),
      ((pyEnum k docs).filter (fun p => q p.1)).map Prod.snd =
        ((List.range docs.length).filter (fun i => q (k + i))).filterMap
          (fun i => docs[i]?) := by
  intro docs
  induction docs with
  | nil => intro k; rfl
  | cons d t ih =>
    intro k
    have hfilter : List.filter ((fun i => q (k + i)) ∘ Nat.succ) (List.range t.length) =
        List.filter (fun i => q (k + 1 + i)) (List.range t.length) := by
      apply List.filter_congr
      intro i _
      show q (k + (i + 1)) = q (k + 1 + i)
      rw [show k + (i + 1) = k + 1 + i by omega]
    have hfm : List.filterMap ((fun i => (d :: t)[i]?) ∘ Nat.succ)
          (List.filter (fun i => q (k + 1 + i)) (List.range t.length)) =
        List.filterMap (fun i => t[i]?)
          (List.filter (fun i => q (k + 1 + i)) (List.range t.length)) := by
      apply List.filterMap_congr
      intro i _
      show (d :: t)[i + 1]? = t[i]?
      exact List.getElem?_cons_succ
    rw [pyEnum, List.length_cons, List.range_succ_eq_map, List.filter_cons, List.filter_cons]
    by_cases hk : q k
    · rw [if_pos (show q ((k, d).1) = true from hk), if_pos (show q (k + 0) = true from hk),
        List.map_cons]
      simp only [List.filterMap_cons, List.getElem?_cons_zero]
      rw [List.filter_map, List.filterMap_map, hfilter, hfm, ← ih (k + 1)]
    · rw [if_neg (show ¬ q ((k, d).1) = true from hk),
        if_neg (show ¬ q (k + 0) = true from hk)]
      rw [List.filter_map, List.filterMap_map, hfilter, hfm, ← ih (k + 1)]

/-- Looking every index of the range up in the list gives the list back. -/
theorem range_filterMap_getElem {α : Type*} : ∀ (docs : List α),
    (List.range docs.length).filterMap (fun i => docs[i]?) = docs := by
  intro docs
  induction docs with
  | nil => rfl
  | cons d t ih =>
    rw [List.length_cons, List.range_succ_eq_map, List.filterMap_cons, List.getElem?_cons_zero,
      List.filterMap_map]
    have : (List.range t.length).filterMap ((fun i => (d :: t)[i]?) ∘ Nat.succ) =
        (List.range t.length).filterMap (fun i => t[i]?) := by
      apply List.filterMap_congr
      intro i _
      show (d :: t)[i + 1]? = t[i]?
      rw [List.getElem?_cons_succ]
    rw [this, ih]

/-- Membership in the valid-index list. -/
theorem mem_rankingValidIdx {n : Nat} {ranking : List Int} {i : Nat} :
    i ∈ rankingValidIdx n ranking ↔ i < n ∧ (i : Int) ∈ ranking := by
  simp only [rankingValidIdx, List.mem_filterMap]
  constructor
  · rintro ⟨j, hj, hij⟩
    by_cases hc : 0 ≤ j ∧ j < (n : Int)
    · rw [if_pos hc] at hij
      have hji := Option.some.inj hij
      subst hji
      refine ⟨by omega, ?_⟩
      rwa [Int.toNat_of_nonneg hc.1]
    · rw [if_neg hc] at hij
      cases hij
  · rintro ⟨hin, hmem⟩
    refine ⟨(i : Int), hmem, ?_⟩
    rw [if_pos ⟨by omega, by omega⟩]
    simp

/-- With a duplicate-free ranking the valid-index list is duplicate
free. -/
theorem rankingValidIdx_nodup {n : Nat} {ranking : List Int} (h : ranking.Nodup) :
    (rankingValidIdx n ranking).Nodup := by
  apply List.Nodup.filterMap _ h
  intro a a' b hb hb'
  by_cases ha : 0 ≤ a ∧ a < (n : Int) <;> by_cases ha' : 0 ≤ a' ∧ a' < (n : Int) <;>
    simp [ha, ha'] at hb hb'
  omega

/-- The valid-index list is a permutation of the mentioned part of the
index range. -/
theorem rankingValidIdx_perm {n : Nat} {ranking : List Int} (h : ranking.Nodup) :
    (rankingValidIdx n ranking).Perm
      ((List.range n).filter (fun i => decide ((i : Int) ∈ ranking))) := by
  apply List.perm_of_nodup_nodup_toFinset_eq (rankingValidIdx_nodup h)
    ((List.nodup_range n).filter _)
  ext i
  simp [List.mem_toFinset, mem_rankingValidIdx, List.mem_filter, List.mem_range, and_comm]

/-- For a duplicate-free parsed ranking, the pre-truncation rerank output
is a permutation of the candidate list. -/
theorem rerankCore_perm {α : Type*} (docs : List α) (ranking : List Int)
    (h : ranking.Nodup) : (rerankCore docs ranking).Perm docs := by
  unfold rerankCore
  rw [filterMap_guard docs.length (fun i => docs[i]?) ranking]
  have hrem := pyEnum_filter_map_snd (fun i => !(decide ((i : Int) ∈ ranking))) docs 0
  have hfix : (List.range docs.length).filter
        (fun (i : Nat) => !(decide (((0 + i : Nat) : Int) ∈ ranking))) =
      (List.range docs.length).filter (fun (i : Nat) => !(decide ((i : Int) ∈ ranking))) := by
    apply List.filter_congr
    intro i _
    rw [Nat.zero_add]
  rw [hfix] at hrem
  rw [hrem, ← List.filterMap_append]
  have hperm : ((rankingValidIdx docs.length ranking) ++
      ((List.range docs.length).filter
        (fun (i : Nat) => !(decide ((i : Int) ∈ ranking))))).Perm
      (List.range docs.length) := by
    refine ((rankingValidIdx_perm h).append (List.Perm.refl _)).trans ?_
    exact List.filter_append_perm _ _
  have := hperm.filterMap (fun i => docs[i]?)
  rwa [range_filterMap_getElem] at this

/-- C5 counterexample: a response with a duplicated index duplicates the
candidate, so the output is not a permutation of the input even before
truncation — for candidates `[0, 1]` the response `"2,2"` yields
`[1, 1, 0]`. -/
theorem rerank_permutation_cex :
    ¬ (∀ (docs : List Nat) (response : PyStr) (topK : Nat), docs.length ≤ topK →
        (rerank docs response topK).Perm docs) := by
  intro h
  exact absurd (h [0, 1] ['2', ',', '2'] 10 (by decide)) (by decide)

/-- C5 (amended): `rerank` truncates the reordered list to `topK`, where
the reordered list is the candidates at the parsed in-range response
indices in response order followed by the unmentioned candidates in
original order; indices are in range with respect to the whole candidate
list (an index beyond the first 20 moves that candidate into the prefix
even though only the first 20 are shown to the model), and whenever the
parsed index list is duplicate free the reordered list is a permutation of
the candidates, each appearing exactly once. -/
theorem rerank_nodup_permutation {α : Type*} (docs : List α) (response : PyStr)
    (topK : Nat) (hne : docs ≠ []) (hnd : (parseRanking response).Nodup) :
    rerank docs response topK = (rerankCore docs (parseRanking response)).take topK ∧
    (rerankCore docs (parseRanking response)).Perm docs := by
  refine ⟨?_, rerankCore_perm docs _ hnd⟩
  unfold rerank
  rw [if_neg (by simpa using hne)]

/-- C5 witness: for candidates `[A, B]` and response `"2"` the output is
`[B, A]`, a permutation. -/
theorem rerank_nodup_permutation_witness :
    rerank [10, 20] ['2'] 5 = [20, 10] ∧
    (rerankCore [10, 20] (parseRanking ['2'])).Perm [10, 20] :=
  ⟨by decide, (rerank_nodup_permutation [10, 20] ['2'] 5 (by decide) (by decide)).2⟩

/-- The head surviving `dropWhile` fails the predicate. -/
theorem not_of_dropWhile_eq_cons {p : Char → Bool} :
    ∀ {l a t}, List.dropWhile p l = a :: t → p a = false := by
  intro l
  induction l with
  | nil => intro a t h; simp at h
  | cons c cs ih =>
    intro a t h
    rw [List.dropWhile_cons] at h
    by_cases hc : p c
    · rw [if_pos hc] at h
      exact ih h
    · rw [if_neg hc] at h
      injection h with h1 _
      subst h1
      exact Bool.eq_false_iff.mpr hc

/-- Stripping only removes characters. -/
theorem mem_of_mem_pyStrip {c : Char} {l : PyStr} (h : c ∈ pyStrip l) : c ∈ l := by
  unfold pyStrip at h
  rw [List.mem_reverse] at h
  have h2 := (List.dropWhile_sublist _).subset h
  rw [List.mem_reverse] at h2
  exact (List.dropWhile_sublist _).subset h2

/-- A string strips to nothing exactly when it is all whitespace. -/
theorem pyStrip_eq_nil_iff {l : PyStr} :
    pyStrip l = [] ↔ ∀ c ∈ l, pyIsSpace c = true := by
  unfold pyStrip
  rw [List.reverse_eq_nil_iff, List.dropWhile_eq_nil_iff]
  constructor
  · intro h c hc
    have hl := List.takeWhile_append_dropWhile pyIsSpace l
    rw [← hl] at hc
    rcases List.mem_append.mp hc with hc | hc
    · exact List.mem_takeWhile_imp hc
    · exact h c (List.mem_reverse.mpr hc)
  · intro h c hc
    exact h c ((List.dropWhile_sublist _).subset (List.mem_reverse.mp hc))

/-- A non-empty stripped string contains a non-whitespace character. -/
theorem exists_nonspace_of_pyStrip_ne_nil {l : PyStr} (h : pyStrip l ≠ []) :
    ∃ c ∈ pyStrip l, pyIsSpace c = false := by
  unfold pyStrip at h ⊢
  have hd : ((l.dropWhile pyIsSpace).reverse.dropWhile pyIsSpace) ≠ [] := by
    intro hh
    rw [hh] at h
    exact h rfl
  obtain ⟨a, t, hat⟩ := List.exists_cons_of_ne_nil hd
  refine ⟨a, ?_, not_of_dropWhile_eq_cons hat⟩
  rw [List.mem_reverse, hat]
  simp

/-- The split of a string is never the empty list of pieces. -/
theorem pySplit_ne_nil (p : Char → Bool) : ∀ s, pySplit p s ≠ [] := by
  intro s
  cases s with
  | nil => simp [pySplit]
  | cons c rest =>
    simp only [pySplit]
    by_cases hc : p c
    · simp [hc]
    · rw [if_neg hc]
      cases hsplit : pySplit p rest with
      | nil => simp
      | cons h t => simp

/-- No piece of a split contains the separator. -/
theorem sep_not_mem_pySplit {c : Char} :
    ∀ (s : PyStr), ∀ l ∈ pySplit (fun x => x == c) s, c ∉ l := by
  intro s
  induction s with
  | nil =>
    intro l hl
    simp only [pySplit, List.mem_singleton] at hl
    subst hl
    simp
  | cons a rest ih =>
    intro l hl
    simp only [pySplit] at hl
    by_cases ha : (a == c) = true
    · rw [if_pos ha] at hl
      rcases List.mem_cons.mp hl with rfl | hl
      · simp
      · exact ih l hl
    · rw [if_neg ha] at hl
      cases hsplit : pySplit (fun x => x == c) rest with
      | nil => exact absurd hsplit (pySplit_ne_nil _ rest)
      | cons hh tt =>
        rw [hsplit] at hl
        rcases List.mem_cons.mp hl with rfl | hl
        · intro hmem
          rcases List.mem_cons.mp hmem with rfl | hmem
          · simp at ha
          · exact ih hh (by rw [hsplit]; exact List.mem_cons_self hh tt) hmem
        · exact ih l (by rw [hsplit]; exact List.mem_cons_of_mem hh hl)

/-- Every non-separator character of a string lies in some piece of its
split. -/
theorem exists_line_of_mem {c x : Char} (hx : x ≠ c) :
    ∀ (s : PyStr), x ∈ s → ∃ l ∈ pySplit (fun ch => ch == c) s, x ∈ l := by
  intro s
  induction s with
  | nil => intro h; simp at h
  | cons a rest ih =>
    intro hmem
    simp only [pySplit]
    by_cases ha : (a == c) = true
    · rw [if_pos ha]
      rcases List.mem_cons.mp hmem with rfl | hmem2
      · exact absurd (eq_of_beq ha) hx
      · obtain ⟨l, hl, hxl⟩ := ih hmem2
        exact ⟨l, List.mem_cons_of_mem _ hl, hxl⟩
    · rw [if_neg ha]
      cases hsplit : pySplit (fun ch => ch == c) rest with
      | nil => exact absurd hsplit (pySplit_ne_nil _ rest)
      | cons hh tt =>
        rcases List.mem_cons.mp hmem with rfl | hmem2
        · exact ⟨x :: hh, List.mem_cons_self _ _, List.mem_cons_self _ _⟩
        · obtain ⟨l, hl, hxl⟩ := ih hmem2
          rw [hsplit] at hl
          rcases List.mem_cons.mp hl with rfl | hl2
          · exact ⟨a :: l, List.mem_cons_self _ _, List.mem_cons_of_mem _ hxl⟩
          · exact ⟨l, List.mem_cons_of_mem _ hl2, hxl⟩

/-- Every character of a join comes from the separator or from a piece. -/
theorem mem_pyJoin {x : Char} {sep : PyStr} : ∀ {L : List PyStr}, x ∈ pyJoin sep L →
    x ∈ sep ∨ ∃ l ∈ L, x ∈ l := by
  intro L
  induction L with
  | nil => intro h; simp [pyJoin] at h
  | cons a as ih =>
    cases as with
    | nil =>
      intro h
      right
      exact ⟨a, by simp, by simpa [pyJoin] using h⟩
    | cons b bs =>
      intro h
      simp only [pyJoin] at h
      rcases List.mem_append.mp h with h | h
      · rcases List.mem_append.mp h with h | h
        · right
          exact ⟨a, by simp, h⟩
        · left
          exact h
      · rcases ih h with h | ⟨l, hl, hxl⟩
        · left
          exact h
        · right
          exact ⟨l, List.mem_cons_of_mem _ hl, hxl⟩

/-- Joining a non-empty list of non-empty pieces is non-empty. -/
theorem pyJoin_ne_nil {sep : PyStr} {L : List PyStr} (hL : L ≠ [])
    (hx : ∀ l ∈ L, l ≠ []) : pyJoin sep L ≠ [] := by
  obtain ⟨a, as, rfl⟩ := List.exists_cons_of_ne_nil hL
  cases as with
  | nil => simpa [pyJoin] using hx a (by simp)
  | cons b bs =>
    simp only [pyJoin]
    intro h
    rcases List.append_eq_nil.mp h with ⟨h1, -⟩
    rcases List.append_eq_nil.mp h1 with ⟨h2, -⟩
    exact hx a (by simp) h2

/-- Length of a join with a one-character separator. -/
theorem length_pyJoin_single {c : Char} : ∀ (L : List PyStr),
    (pyJoin [c] L).length = (L.map List.length).sum + (L.length - 1) := by
  intro L
  induction L with
  | nil => rfl
  | cons a as ih =>
    cases as with
    | nil => simp [pyJoin]
    | cons b bs =>
      have h : pyJoin [c] (a :: b :: bs) = a ++ [c] ++ pyJoin [c] (b :: bs) := rfl
      have h2 : ((a :: b :: bs).map List.length).sum =
          a.length + ((b :: bs).map List.length).sum := by
        simp
      have h3 : (a :: b :: bs).length = (b :: bs).length + 1 := rfl
      have h4 : ([c] : PyStr).length = 1 := rfl
      have h5 : 1 ≤ (b :: bs).length := by simp
      rw [h, List.length_append, List.length_append, ih, h2, h3, h4]
      omega

/-- Joining a split with the separator reconstructs the string. -/
theorem pyJoin_pySplit {c : Char} : ∀ (s : PyStr),
    pyJoin [c] (pySplit (fun x => x == c) s) = s := by
  intro s
  induction s with
  | nil => rfl
  | cons a rest ih =>
    simp only [pySplit]
    by_cases ha : (a == c) = true
    · rw [if_pos ha]
      obtain ⟨hh, tt, hsplit⟩ :=
        List.exists_cons_of_ne_nil (pySplit_ne_nil (fun x => x == c) rest)
      rw [hsplit]
      rw [hsplit] at ih
      have hac := eq_of_beq ha
      subst hac
      simpa [pyJoin] using ih
    · rw [if_neg ha]
      cases hsplit : pySplit (fun x => x == c) rest with
      | nil => exact absurd hsplit (pySplit_ne_nil _ rest)
      | cons hh tt =>
        rw [hsplit] at ih
        cases tt with
        | nil =>
          simp only [pyJoin] at ih ⊢
          rw [ih]
        | cons u us =>
          simp only [pyJoin, List.cons_append, List.append_assoc] at ih ⊢
          rw [ih]

/-- Dropping pieces only shortens the total length. -/
theorem sum_map_filter_le (f : PyStr → Nat) (q : PyStr → Bool) : ∀ (L : List PyStr),
    ((L.filter q).map f).sum ≤ (L.map f).sum := by
  intro L
  induction L with
  | nil => simp
  | cons a as ih =>
    rw [List.filter_cons]
    by_cases ha : q a
    · rw [if_pos ha]
      simp only [List.map_cons, List.sum_cons]
      omega
    · rw [if_neg ha]
      simp only [List.map_cons, List.sum_cons]
      omega

/-- Stripping only shortens a string. -/
theorem pyStrip_length_le (l : PyStr) : (pyStrip l).length ≤ l.length := by
  unfold pyStrip
  rw [List.length_reverse]
  have h1 := (List.dropWhile_sublist (l := (l.dropWhile pyIsSpace).reverse)
    pyIsSpace).length_le
  rw [List.length_reverse] at h1
  have h2 := (List.dropWhile_sublist (l := l) pyIsSpace).length_le
  omega

/-- Newline collapsing only shortens a string. -/
theorem collapseNewlines_length_le (s : PyStr) :
    (collapseNewlines s).length ≤ s.length := by
  unfold collapseNewlines
  have hs : s.length =
      ((pySplit (fun x => x == '\n') s).map List.length).sum +
        ((pySplit (fun x => x == '\n') s).length - 1) := by
    conv_lhs => rw [← pyJoin_pySplit (c := '\n') s]
    exact length_pyJoin_single _
  rw [length_pyJoin_single]
  have h1 := sum_map_filter_le List.length (fun l => decide (l ≠ []))
    ((pySplit (fun x => x == '\n') s).map pyStrip)
  have h2 : (((pySplit (fun x => x == '\n') s).map pyStrip).map List.length).sum ≤
      ((pySplit (fun x => x == '\n') s).map List.length).sum := by
    rw [List.map_map]
    apply List.sum_le_sum
    intro l _
    exact pyStrip_length_le l
  have h3 : ((((pySplit (fun x => x == '\n') s).map pyStrip).filter
      (fun l => decide (l ≠ []))).length) ≤ (pySplit (fun x => x == '\n') s).length := by
    refine le_trans (List.length_filter_le _ _) ?_
    rw [List.length_map]
  rw [hs]
  exact Nat.add_le_add (le_trans h1 h2) (Nat.sub_le_sub_right h3 1)

/-- Newline collapsing removes every newline. -/
theorem newline_not_mem_collapseNewlines (s : PyStr) : '\n' ∉ collapseNewlines s := by
  intro hmem
  unfold collapseNewlines at hmem
  rcases mem_pyJoin hmem with h | ⟨l, hl, hxl⟩
  · simp at h
  · obtain ⟨hl2, -⟩ := List.mem_filter.mp hl
    obtain ⟨l0, hl0, rfl⟩ := List.mem_map.mp hl2
    exact sep_not_mem_pySplit s l0 hl0 (mem_of_mem_pyStrip hxl)

/-- Collapsing a string containing a non-whitespace character is
non-empty. -/
theorem collapseNewlines_ne_nil {s : PyStr} {x : Char} (hx : x ∈ s)
    (hxs : pyIsSpace x = false) : collapseNewlines s ≠ [] := by
  have hxn : x ≠ '\n' := by
    rintro rfl
    exact absurd hxs (by decide)
  obtain ⟨l, hl, hxl⟩ := exists_line_of_mem hxn s hx
  have hstrip : pyStrip l ≠ [] := by
    intro hnil
    have hws := pyStrip_eq_nil_iff.mp hnil x hxl
    rw [hws] at hxs
    cases hxs
  unfold collapseNewlines
  apply pyJoin_ne_nil
  · apply List.ne_nil_of_mem (a := pyStrip l)
    exact List.mem_filter.mpr ⟨List.mem_map_of_mem _ hl, by simpa using hstrip⟩
  · intro l' hl'
    simpa using (List.mem_filter.mp hl').2

/-- C8 counterexample: a 72-character response with six newlines passes the
gate, is newline-collapsed to the 7-character text `aaa bbb`, and is
returned — violating the claimed `[50, 1000]` length clamp of the accepted
summary. -/
theorem summarize_length_clamp_cex :
    ¬ (∀ (content : PyStr) (resp : Except LLMError PyStr) (s : PyStr),
        summarizeResult content resp = some s →
          s ≠ [] ∧ s.length < content.length ∧ 50 ≤ s.length ∧ s.length ≤ 1000) := by
  intro h
  have h2 := h (List.replicate 100 'x')
      (.ok (['a', 'a', 'a'] ++
        (List.replicate 6 (List.replicate 10 ' ' ++ ['\n'])).flatten ++ ['b', 'b', 'b']))
      ['a', 'a', 'a', ' ', 'b', 'b', 'b'] (by decide)
  exact absurd h2.2.2.1 (by decide)

/-- C8 (amended): every accepted summary is non-empty, at most 1003
characters long (over-long outputs are cut to 1000 characters plus a
3-character ellipsis), and contains at most 5 newlines (more than 5 are
collapsed away entirely); before post-processing the output was strictly
shorter than the source and at least 50 characters, so the source exceeds
50 characters — but post-processing (ellipsis truncation, newline
collapsing) can leave the final text outside `[50, 1000]` and even at least
as long as a short source.  Any failure yields no summary. -/
theorem summarize_output_bounds (content : PyStr) (resp : Except LLMError PyStr)
    (s : PyStr) (hs : summarizeResult content resp = some s) :
    s ≠ [] ∧ s.length ≤ 1003 ∧ List.count '\n' s ≤ 5 ∧ 50 < content.length := by
  unfold summarizeResult at hs
  by_cases h0 : content = [] ∨ pyStrip content = []
  · rw [if_pos h0] at hs
    cases hs
  rw [if_neg h0] at hs
  cases resp with
  | error e => cases hs
  | ok raw =>
    dsimp only [] at hs
    by_cases h1 : pyStrip raw = []
    · rw [if_pos h1] at hs
      cases hs
    rw [if_neg h1] at hs
    by_cases h2 : content.length ≤ (pyStrip raw).length
    · rw [if_pos h2] at hs
      cases hs
    rw [if_neg h2] at hs
    by_cases h3 : (pyStrip raw).length < 50
    · rw [if_pos h3] at hs
      cases hs
    rw [if_neg h3] at hs
    set t := pyStrip raw with ht
    have hs2 := Option.some.inj hs
    set s2 := if 1000 < t.length then t.take 1000 ++ ['.', '.', '.'] else t with hs2def
    have hlen2 : s2.length ≤ 1003 := by
      rw [hs2def]
      split
      · rw [List.length_append, List.length_take]
        have := Nat.min_le_left 1000 t.length
        simp only [List.length_cons, List.length_nil]
        omega
      · omega
    have hnonsp : ∃ c ∈ s2, pyIsSpace c = false := by
      rw [hs2def]
      split
      · exact ⟨'.', by simp, by decide⟩
      · exact exists_nonspace_of_pyStrip_ne_nil h1
    rw [← hs2]
    refine ⟨?_, ?_, ?_, by omega⟩
    · split
      · obtain ⟨c, hc, hcs⟩ := hnonsp
        exact collapseNewlines_ne_nil hc hcs
      · obtain ⟨c, hc, -⟩ := hnonsp
        exact List.ne_nil_of_mem hc
    · split
      · exact le_trans (collapseNewlines_length_le s2) hlen2
      · exact hlen2
    · split
      · rw [List.count_eq_zero.mpr (newline_not_mem_collapseNewlines s2)]
        omega
      · omega

/-- C8 witness: a 50-character output for a 60-character source is accepted
unchanged and satisfies the bounds. -/
theorem summarize_output_bounds_witness :
    (List.replicate 50 'y' : PyStr) ≠ [] ∧
    (List.replicate 50 'y' : PyStr).length ≤ 1003 ∧
    List.count '\n' (List.replicate 50 'y' : PyStr) ≤ 5 ∧
    50 < (List.replicate 60 'x' : PyStr).length :=
  summarize_output_bounds (List.replicate 60 'x') (.ok (List.replicate 50 'y'))
    (List.replicate 50 'y') (by decide)

/-- C10 counterexample: the composite cache key
`f"{query}|{model}|{temperature}"` is not injective across configurations —
a model name containing `|` aliases another configuration's key — so a
cache hit can return a value that was never gate-validated for the query of
the call: the value `a xy`, validated for query `a` under model `b|m`, is
served for query `a|b` under model `m`, although it fails that query's
gate. -/
theorem expander_cache_gate_cex :
    ¬ (∀ cache, ReachableCache cache → ∀ (cfg : ExpanderCfg) (query : PyStr)
        (resp : Except LLMError PyStr) (t : PyStr),
        (expandCached cfg cache query resp).1 = some t → gateAccepts query t = true) := by
  intro h
  have hr : ReachableCache (expandCached ⟨['b', '|', 'm'], ['0', '.', '3']⟩ [] ['a']
      (.ok ['a', ' ', 'x', 'y'])).2 :=
    ReachableCache.step _ _ _ _ ReachableCache.empty
  have h2 := h _ hr ⟨['m'], ['0', '.', '3']⟩ ['a', '|', 'b'] (.ok [])
      ['a', ' ', 'x', 'y'] (by decide)
  exact absurd h2 (by decide)

/-- C10 (amended): for one fixed expander configuration, every value stored
in the cache was accepted by the full validation gate for the query of its
key, and every non-`none` result of `expand` on such a cache — cache hit or
fresh — satisfies the gate for the query argument of the call.  Across
configurations the string-joined key is not injective, so the invariant
fails (see the counterexample). -/
theorem expander_cache_invariant (cfg : ExpanderCfg) (cache : Cache) (query : PyStr)
    (resp : Except LLMError PyStr) (hinv : CacheInv cfg cache) :
    CacheInv cfg (expandCached cfg cache query resp).2 ∧
    (∀ t, (expandCached cfg cache query resp).1 = some t →
      gateAccepts query t = true) := by
  unfold expandCached
  by_cases h0 : query = [] ∨ pyStrip query = []
  · rw [if_pos h0]
    exact ⟨hinv, fun t ht => by cases ht⟩
  rw [if_neg h0]
  cases hl : cacheLookup (cacheKey cfg query) cache with
  | some v =>
    dsimp only
    refine ⟨hinv, ?_⟩
    intro t ht
    have hvt := Option.some.inj ht
    subst hvt
    unfold cacheLookup at hl
    rcases Option.map_eq_some'.mp hl with ⟨p, hfind, hp2⟩
    have hmem := List.mem_of_find?_eq_some hfind
    have hpred := List.find?_some hfind
    have hkey : p.1 = cacheKey cfg query := by
      simpa using hpred
    obtain ⟨q', hq', hg⟩ := hinv p hmem
    have hqq : q' = query := by
      rw [hq'] at hkey
      unfold cacheKey at hkey
      exact List.append_cancel_right hkey
    rw [← hp2, ← hqq]
    exact hg
  | none =>
    dsimp only
    cases resp with
    | error e => exact ⟨hinv, fun t ht => by cases ht⟩
    | ok raw =>
      dsimp only
      cases hv : validateExpansion query raw with
      | none => exact ⟨hinv, fun t ht => by cases ht⟩
      | some t0 =>
        dsimp only
        constructor
        · intro p hp
          rcases List.mem_cons.mp hp with rfl | hp
          · exact ⟨query, rfl, validateExpansion_gate hv⟩
          · exact hinv p hp
        · intro t ht
          have htt := Option.some.inj ht
          subst htt
          exact validateExpansion_gate hv

/-- C10 witness: on the empty cache a freshly accepted expansion satisfies
the gate for its query. -/
theorem expander_cache_invariant_witness :
    gateAccepts ['a'] ['a', ' ', 'x', 'y'] = true :=
  (expander_cache_invariant ⟨['m'], ['0', '.', '3']⟩ [] ['a']
      (.ok ['a', ' ', 'x', 'y']) (fun p hp => absurd hp (List.not_mem_nil p))).2
    ['a', ' ', 'x', 'y'] (by decide)

end Aurora
